import Mathlib

/-!
Shallow embedding of `sequence_variations.py`: eight detectors of structural
variations of a pattern inside a sequence (repetition, transposition,
retrograde, inversion, local auxiliary/primary changes, fragmentation,
extension), together with the two greedy subsequence-alignment helpers.

Items are an arbitrary type `α` with decidable equality; the extractor
functions (`value_fn`, `primary_fn`, `aux_fn`) are explicit parameters, as in
the Python source where they are caller-supplied strategies.  Python's
`sequence[i : i + L]` becomes `window`; `range(N - L + 1)` becomes
`List.range (N + 1 - L)`, which like the Python range is empty whenever
`L > N` (truncated subtraction).  Indexing `xs[j]` on indices that the source
only ever uses in bounds becomes `List.getD xs j default`.
-/

namespace SequenceVariations

variable {α : Type} {β : Type} {γ : Type}

/-- The contiguous slice `s[i : i + len]` of a list. -/
def window (s : List α) (i len : Nat) : List α :=
  (s.drop i).take len

/-- `repetition(pattern, sequence)`: start indices of exact occurrences. -/
def repetition [DecidableEq α] (pattern sequence : List α) : List Nat :=
  if pattern.length = 0 then []
  else
    (List.range (sequence.length + 1 - pattern.length)).filter
      (fun i => decide (window sequence i pattern.length = pattern))

/-- Match record of `transposition`: a start position and the constant offset. -/
structure TransRecord where
  position : Nat
  offset : Int
deriving DecidableEq

/-- `transposition(pattern, sequence, value_fn, aux_fn, require_same_aux)`. -/
def transposition [DecidableEq γ] [Inhabited α] (pattern sequence : List α)
    (value_fn : α → Int) (aux_fn : α → γ) (require_same_aux : Bool) :
    List TransRecord :=
  if pattern.length = 0 then []
  else
    let L := pattern.length
    (List.range (sequence.length + 1 - L)).filterMap (fun i =>
      let segment := window sequence i L
      if require_same_aux &&
          !((List.range L).all fun j =>
            decide (aux_fn (segment.getD j default) = aux_fn (pattern.getD j default))) then
        none
      else
        let base_offset :=
          value_fn (segment.getD 0 default) - value_fn (pattern.getD 0 default)
        if base_offset = 0 then none
        else if (List.range L).all (fun j =>
            decide (value_fn (segment.getD j default) - value_fn (pattern.getD j default)
              = base_offset)) then
          some ⟨i, base_offset⟩
        else none)

/-- `retrograde(pattern, sequence, primary_fn, aux_fn, require_same_aux)`. -/
def retrograde [DecidableEq β] [DecidableEq γ] [Inhabited α]
    (pattern sequence : List α) (primary_fn : α → β) (aux_fn : α → γ)
    (require_same_aux : Bool) : List Nat :=
  if pattern.length = 0 then []
  else
    let L := pattern.length
    (List.range (sequence.length + 1 - L)).filter (fun i =>
      let segment := window sequence i L
      (List.range L).all fun j =>
        let p := pattern.getD (L - 1 - j) default
        let s := segment.getD j default
        decide (primary_fn s = primary_fn p) &&
          (!require_same_aux || decide (aux_fn s = aux_fn p)))

/-- `inversion(pattern, sequence, value_fn, aux_fn, require_same_aux)`. -/
def inversion [DecidableEq γ] [Inhabited α] (pattern sequence : List α)
    (value_fn : α → Int) (aux_fn : α → γ) (require_same_aux : Bool) :
    List Nat :=
  if pattern.length = 0 then []
  else
    let L := pattern.length
    let axis := value_fn (pattern.getD 0 default)
    (List.range (sequence.length + 1 - L)).filter (fun i =>
      let segment := window sequence i L
      decide (value_fn (segment.getD 0 default) = axis) &&
        (!require_same_aux ||
          (List.range L).all fun j =>
            decide (aux_fn (segment.getD j default) = aux_fn (pattern.getD j default))) &&
        (List.range L).all fun j =>
          decide (value_fn (segment.getD j default)
            = axis - (value_fn (pattern.getD j default) - axis)))

/-- Match record of the local-change detectors: position plus the list of
`(index, new component value)` pairs. -/
structure ChangeRecord (γ : Type) where
  position : Nat
  changed : List (Nat × γ)
deriving DecidableEq

/-- `local_aux_changes(pattern, sequence, primary_fn, aux_fn, max_changes)`. -/
def local_aux_changes [DecidableEq β] [DecidableEq γ] [Inhabited α]
    (pattern sequence : List α) (primary_fn : α → β) (aux_fn : α → γ)
    (max_changes : Option Nat) : List (ChangeRecord γ) :=
  if pattern.length = 0 then []
  else
    let L := pattern.length
    let mc := max_changes.getD (max 1 (L / 4))
    (List.range (sequence.length + 1 - L)).filterMap (fun i =>
      let segment := window sequence i L
      if !((List.range L).all fun j =>
          decide (primary_fn (segment.getD j default) = primary_fn (pattern.getD j default))) then
        none
      else
        let changed := (List.range L).filterMap (fun j =>
          if aux_fn (segment.getD j default) ≠ aux_fn (pattern.getD j default) then
            some (j, aux_fn (segment.getD j default))
          else none)
        if 0 < changed.length ∧ changed.length ≤ mc then some ⟨i, changed⟩
        else none)

/-- `local_value_changes(pattern, sequence, primary_fn, aux_fn, max_changes,
require_same_aux)`. -/
def local_value_changes [DecidableEq β] [DecidableEq γ] [Inhabited α]
    (pattern sequence : List α) (primary_fn : α → β) (aux_fn : α → γ)
    (max_changes : Option Nat) (require_same_aux : Bool) :
    List (ChangeRecord β) :=
  if pattern.length = 0 then []
  else
    let L := pattern.length
    let mc := max_changes.getD (max 1 (L / 4))
    (List.range (sequence.length + 1 - L)).filterMap (fun i =>
      let segment := window sequence i L
      if require_same_aux &&
          !((List.range L).all fun j =>
            decide (aux_fn (segment.getD j default) = aux_fn (pattern.getD j default))) then
        none
      else
        let changed := (List.range L).filterMap (fun j =>
          if primary_fn (segment.getD j default) ≠ primary_fn (pattern.getD j default) then
            some (j, primary_fn (segment.getD j default))
          else none)
        if 0 < changed.length ∧ changed.length ≤ mc then some ⟨i, changed⟩
        else none)

/-- Cursor loop of `_removed_positions_for_fragment`: `i` is the current
pattern index; the two remaining lists are the unread suffixes of the pattern
and the fragment.  When the fragment is exhausted the whole remaining pattern
suffix is removed; when the pattern is exhausted first the fragment did not
embed and the result is `none`. -/
def removedAux [DecidableEq α] : Nat → List α → List α → Option (List Nat)
  | i, ps, [] => some (List.range' i ps.length)
  | _, [], _ :: _ => none
  | i, p :: ps, f :: fs =>
    if p = f then removedAux (i + 1) ps fs
    else (removedAux (i + 1) ps (f :: fs)).map (fun r => i :: r)

/-- `_removed_positions_for_fragment(pattern, fragment)`. -/
def removed_positions_for_fragment [DecidableEq α] (pattern fragment : List α) :
    Option (List Nat) :=
  removedAux 0 pattern fragment

/-- Match record of `fragmentation`. -/
structure FragRecord where
  position : Nat
  removed_indices : List Nat
deriving DecidableEq

/-- Spans `(s, s + L - 1)` of the exact full-pattern matches, as precomputed
by `fragmentation`. -/
def exactSpans [DecidableEq α] (pattern sequence : List α) : List (Nat × Nat) :=
  ((List.range (sequence.length + 1 - pattern.length)).filter
      (fun s => decide (window sequence s pattern.length = pattern))).map
    (fun s => (s, s + pattern.length - 1))

/-- `inside_exact_span(start, end)` from `fragmentation`. -/
def insideExactSpan (spans : List (Nat × Nat)) (start e : Nat) : Bool :=
  spans.any fun ab => decide (ab.1 ≤ start) && decide (e ≤ ab.2)

/-- `best_by_pos.get(start)` at the end of `fragmentation`'s double loop.  The
source iterates `frag_len` ascending and, per `start`, replaces the stored
candidate exactly when the new removed list is strictly shorter; updates for
distinct starts are independent, so the per-start history is the fold below
over the same ascending `frag_len` range. -/
def fragStep [DecidableEq α] (pattern sequence : List α)
    (spans : List (Nat × Nat)) (start : Nat) (best : Option (List Nat))
    (frag_len : Nat) : Option (List Nat) :=
  if start + frag_len ≤ sequence.length &&
      !insideExactSpan spans start (start + frag_len - 1) then
    match removed_positions_for_fragment pattern (window sequence start frag_len) with
    | none => best
    | some removed =>
      match best with
      | none => some removed
      | some existing =>
        if removed.length < existing.length then some removed else best
  else best

def fragCandidate [DecidableEq α] (pattern sequence : List α) (ml : Nat)
    (spans : List (Nat × Nat)) (start : Nat) : Option (List Nat) :=
  (List.range' ml (pattern.length - ml)).foldl
    (fragStep pattern sequence spans start) none

/-- The final overlap-suppression sweep of `fragmentation`: keep a record iff
its start exceeds the `last_end` of the previously kept record (initially
`-1`). -/
def greedyFilter (L : Nat) : Int → List FragRecord → List FragRecord
  | _, [] => []
  | lastEnd, r :: rs =>
    let fragLen := L - r.removed_indices.length
    if lastEnd < (r.position : Int) then
      r :: greedyFilter L ((r.position : Int) + fragLen - 1) rs
    else greedyFilter L lastEnd rs

/-- `fragmentation(pattern, sequence, min_len)`. -/
def fragmentation [DecidableEq α] (pattern sequence : List α)
    (min_len : Option Nat) : List FragRecord :=
  let L := pattern.length
  let N := sequence.length
  if L = 0 || N = 0 then []
  else
    let ml := min_len.getD (L - L / 4)
    let spans := exactSpans pattern sequence
    let results := (List.range (N + 1 - ml)).filterMap (fun start =>
      (fragCandidate pattern sequence ml spans start).map
        (fun removed => FragRecord.mk start removed))
    greedyFilter L (-1) results

/-- Cursor loop of `_added_positions_for_fragment`: walks the fragment with
index `j`, consuming the pattern on equality, recording `(j, item)` otherwise;
returns the recorded additions and the unconsumed pattern suffix. -/
def addedWalk [DecidableEq α] : Nat → List α → List α → List (Nat × α) × List α
  | _, [], ps => ([], ps)
  | j, f :: fs, [] =>
    let rest := addedWalk (j + 1) fs []
    ((j, f) :: rest.1, rest.2)
  | j, f :: fs, p :: ps =>
    if f = p then addedWalk (j + 1) fs ps
    else
      let rest := addedWalk (j + 1) fs (p :: ps)
      ((j, f) :: rest.1, rest.2)

/-- `_added_positions_for_fragment(pattern, fragment)`. -/
def added_positions_for_fragment [DecidableEq α] (pattern fragment : List α) :
    Option (List (Nat × α)) :=
  let w := addedWalk 0 fragment pattern
  if w.2 ≠ [] then none
  else
    match w.1 with
    | [] => none
    | a :: rest =>
      if a.1 = 0 || (rest.getLastD a).1 = fragment.length - 1 then none
      else some (a :: rest)

/-- Match record of `extension`. -/
structure ExtRecord (α : Type) where
  position : Nat
  added : List (Nat × α)
deriving DecidableEq

/-- `best` at the end of `extension`'s inner loop for one `start`: window
lengths `L+1 .. L+max_extra` ascending, every success overwrites; once
`start + frag_len` exceeds the sequence length the source breaks, and all
longer windows would also overflow, so skipping is equivalent. -/
def extStep [DecidableEq α] (pattern sequence : List α) (start : Nat)
    (best : Option (ExtRecord α)) (frag_len : Nat) : Option (ExtRecord α) :=
  if sequence.length < start + frag_len then best
  else
    match added_positions_for_fragment pattern (window sequence start frag_len) with
    | none => best
    | some added => some ⟨start, added⟩

def extBest [DecidableEq α] (pattern sequence : List α)
    (max_extra start : Nat) : Option (ExtRecord α) :=
  (List.range' (pattern.length + 1) max_extra).foldl
    (extStep pattern sequence start) none

/-- `extension(pattern, sequence, max_extra)`. -/
def extension [DecidableEq α] (pattern sequence : List α)
    (max_extra : Option Nat) : List (ExtRecord α) :=
  let L := pattern.length
  let N := sequence.length
  if L = 0 || N = 0 then []
  else
    let me := max_extra.getD (max 1 (L / 4))
    (List.range (N + 1 - L)).filterMap (fun start =>
      extBest pattern sequence me start)

/-- Delete from `l` the elements whose positions occur in `idxs`. -/
def deleteIndices (idxs : List Nat) (l : List α) : List α :=
  ((l.enumFrom 0).filter (fun p => decide (p.1 ∉ idxs))).map Prod.snd

/-! ### Window lemmas -/

theorem window_length (s : List α) (i len : Nat) (h : i + len ≤ s.length) :
    (window s i len).length = len := by
  simp only [window, List.length_take, List.length_drop]
  omega

theorem window_getD (s : List α) (i len j : Nat) (d : α) (hj : j < len) :
    (window s i len).getD j d = s.getD (i + j) d := by
  simp [window, List.getD_eq_getElem?_getD, List.getElem?_take,
    List.getElem?_drop, hj]

theorem window_eq_iff [Inhabited α] (s P : List α) (i : Nat)
    (h : i + P.length ≤ s.length) :
    window s i P.length = P ↔
      ∀ j < P.length, s.getD (i + j) default = P.getD j default := by
  constructor
  · intro he j hj
    rw [← window_getD s i P.length j default hj, he]
  · intro hp
    have hlen := window_length s i P.length h
    refine List.ext_getElem (by rw [hlen]) (fun n h₁ h₂ => ?_)
    have hn : n < P.length := h₂
    have := hp n hn
    rw [← window_getD s i P.length n default hn] at this
    rw [← List.getD_eq_getElem (window s i P.length) default h₁,
      ← List.getD_eq_getElem P default h₂, this]

theorem mem_range_window_iff {n l i : Nat} :
    i ∈ List.range (n + 1 - l) ↔ i + l ≤ n := by
  rw [List.mem_range]
  omega

/-! ### Lemmas about the fragmentation alignment helper -/

theorem removedAux_length [DecidableEq α] :
    ∀ (i : Nat) (ps fs : List α) (r : List Nat),
      removedAux i ps fs = some r → r.length + fs.length = ps.length := by
  intro i ps
  induction ps generalizing i with
  | nil =>
    intro fs r h
    cases fs with
    | nil =>
      simp only [removedAux, List.range', Option.some.injEq] at h
      subst h; rfl
    | cons f fs => simp [removedAux] at h
  | cons p ps ih =>
    intro fs r h
    cases fs with
    | nil =>
      simp only [removedAux, Option.some.injEq] at h
      subst h
      simp [List.length_range']
    | cons f fs =>
      simp only [removedAux] at h
      split at h
      · have := ih (i + 1) fs r h
        simp only [List.length_cons]
        omega
      · rcases Option.map_eq_some'.mp h with ⟨r', hr', rfl⟩
        have := ih (i + 1) (f :: fs) r' hr'
        simp only [List.length_cons] at this ⊢
        omega

theorem removedAux_bounds [DecidableEq α] :
    ∀ (i : Nat) (ps fs : List α) (r : List Nat),
      removedAux i ps fs = some r → ∀ x ∈ r, i ≤ x ∧ x < i + ps.length := by
  intro i ps
  induction ps generalizing i with
  | nil =>
    intro fs r h x hx
    cases fs with
    | nil =>
      simp only [removedAux, List.range', Option.some.injEq] at h
      subst h; simp at hx
    | cons f fs => simp [removedAux] at h
  | cons p ps ih =>
    intro fs r h x hx
    cases fs with
    | nil =>
      simp only [removedAux, Option.some.injEq] at h
      subst h
      rw [List.mem_range'_1] at hx
      simpa using hx
    | cons f fs =>
      simp only [removedAux] at h
      split at h
      · have := ih (i + 1) fs r h x hx
        simp only [List.length_cons]
        omega
      · rcases Option.map_eq_some'.mp h with ⟨r', hr', rfl⟩
        rcases List.mem_cons.mp hx with rfl | hx'
        · simp
        · have := ih (i + 1) (f :: fs) r' hr' x hx'
          simp only [List.length_cons] at this ⊢
          omega

theorem removedAux_pairwise [DecidableEq α] :
    ∀ (i : Nat) (ps fs : List α) (r : List Nat),
      removedAux i ps fs = some r → r.Pairwise (· < ·) := by
  intro i ps
  induction ps generalizing i with
  | nil =>
    intro fs r h
    cases fs with
    | nil =>
      simp only [removedAux, List.range', Option.some.injEq] at h
      subst h; simp
    | cons f fs => simp [removedAux] at h
  | cons p ps ih =>
    intro fs r h
    cases fs with
    | nil =>
      simp only [removedAux, Option.some.injEq] at h
      subst h
      exact List.pairwise_lt_range' i (ps.length + 1)
    | cons f fs =>
      simp only [removedAux] at h
      split at h
      · exact ih (i + 1) fs r h
      · rcases Option.map_eq_some'.mp h with ⟨r', hr', rfl⟩
        refine List.pairwise_cons.mpr ⟨fun x hx => ?_, ih (i + 1) (f :: fs) r' hr'⟩
        have := removedAux_bounds (i + 1) ps (f :: fs) r' hr' x hx
        omega

theorem removedAux_delete [DecidableEq α] :
    ∀ (i : Nat) (ps fs : List α) (r : List Nat),
      removedAux i ps fs = some r →
      ((ps.enumFrom i).filter (fun q => decide (q.1 ∉ r))).map Prod.snd = fs := by
  intro i ps
  induction ps generalizing i with
  | nil =>
    intro fs r h
    cases fs with
    | nil => simp
    | cons f fs => simp [removedAux] at h
  | cons p ps ih =>
    intro fs r h
    cases fs with
    | nil =>
      simp only [removedAux, Option.some.injEq] at h
      subst h
      rw [List.filter_eq_nil_iff.mpr, List.map_nil]
      intro q hq
      have hmem := List.mem_enumFrom hq
      simp only [List.length_cons] at hmem
      simp only [decide_eq_true_eq, not_not, List.mem_range'_1, List.length_cons]
      omega
    | cons f fs =>
      simp only [removedAux] at h
      split at h
      · rename_i heq
        have hb := removedAux_bounds (i + 1) ps fs r h
        rw [List.enumFrom_cons, List.filter_cons]
        have hi : decide ((i, p).1 ∉ r) = true := by
          simp only [decide_eq_true_eq]
          intro hmem
          have := hb i hmem
          omega
        rw [if_pos hi, List.map_cons, heq, ih (i + 1) fs r h]
      · rcases Option.map_eq_some'.mp h with ⟨r', hr', rfl⟩
        have hb := removedAux_bounds (i + 1) ps (f :: fs) r' hr'
        rw [List.enumFrom_cons, List.filter_cons, if_neg (by simp),
          ← ih (i + 1) (f :: fs) r' hr']
        congr 1
        refine List.filter_congr (fun q hq => ?_)
        have hmem := List.mem_enumFrom hq
        have hne : q.1 ≠ i := by
          have := hmem.1
          omega
        simp only [List.mem_cons, decide_eq_decide]
        tauto

theorem removed_positions_length [DecidableEq α] (pattern fragment : List α)
    (r : List Nat) (h : removed_positions_for_fragment pattern fragment = some r) :
    r.length + fragment.length = pattern.length :=
  removedAux_length 0 pattern fragment r h

theorem removed_positions_delete [DecidableEq α] (pattern fragment : List α)
    (r : List Nat) (h : removed_positions_for_fragment pattern fragment = some r) :
    deleteIndices r pattern = fragment :=
  removedAux_delete 0 pattern fragment r h

/-! ### Lemmas about the extension alignment helper -/

theorem addedWalk_spec [DecidableEq α] :
    ∀ (j : Nat) (fs ps : List α),
      fs.length + (addedWalk j fs ps).2.length
        = ps.length + (addedWalk j fs ps).1.length := by
  intro j fs
  induction fs generalizing j with
  | nil => intro ps; simp [addedWalk]
  | cons f fs ih =>
    intro ps
    cases ps with
    | nil =>
      have := ih (j + 1) []
      simp only [addedWalk, List.length_cons, List.length_nil] at this ⊢
      omega
    | cons p ps =>
      simp only [addedWalk]
      split
      · have := ih (j + 1) ps
        simp only [List.length_cons]
        omega
      · have := ih (j + 1) (p :: ps)
        simp only [List.length_cons] at this ⊢
        omega

theorem addedWalk_bounds [DecidableEq α] :
    ∀ (j : Nat) (fs ps : List α),
      ∀ q ∈ (addedWalk j fs ps).1, j ≤ q.1 ∧ q.1 < j + fs.length := by
  intro j fs
  induction fs generalizing j with
  | nil => intro ps q hq; simp [addedWalk] at hq
  | cons f fs ih =>
    intro ps q hq
    cases ps with
    | nil =>
      simp only [addedWalk, List.mem_cons] at hq
      rcases hq with rfl | hq'
      · simp
      · have := ih (j + 1) [] q hq'
        simp only [List.length_cons]
        omega
    | cons p ps =>
      simp only [addedWalk] at hq
      split at hq
      · have := ih (j + 1) ps q hq
        simp only [List.length_cons]
        omega
      · simp only [List.mem_cons] at hq
        rcases hq with rfl | hq'
        · simp
        · have := ih (j + 1) (p :: ps) q hq'
          simp only [List.length_cons]
          omega

theorem addedWalk_delete [DecidableEq α] :
    ∀ (j : Nat) (fs ps : List α), (addedWalk j fs ps).2 = [] →
      ((fs.enumFrom j).filter
        (fun q => decide (q.1 ∉ (addedWalk j fs ps).1.map Prod.fst))).map
          Prod.snd = ps := by
  intro j fs
  induction fs generalizing j with
  | nil =>
    intro ps h
    simp only [addedWalk] at h ⊢
    simp [h]
  | cons f fs ih =>
    intro ps h
    cases ps with
    | nil =>
      simp only [addedWalk] at h ⊢
      rw [List.enumFrom_cons, List.filter_cons, if_neg (by simp)]
      have hcongr : List.filter
          (fun q => decide (q.1 ∉ ((j, f) :: (addedWalk (j + 1) fs []).1).map Prod.fst))
          (fs.enumFrom (j + 1))
          = List.filter
            (fun q => decide (q.1 ∉ (addedWalk (j + 1) fs []).1.map Prod.fst))
            (fs.enumFrom (j + 1)) := by
        refine List.filter_congr (fun q hq => ?_)
        have hmem := List.mem_enumFrom hq
        have hne : q.1 ≠ j := by
          have := hmem.1
          omega
        simp only [List.map_cons, List.mem_cons, decide_eq_decide]
        tauto
      rw [hcongr]
      exact ih (j + 1) [] h
    | cons p ps =>
      by_cases hfp : f = p
      · simp only [addedWalk, if_pos hfp] at h ⊢
        rw [List.enumFrom_cons, List.filter_cons, if_pos ?kp]
        case kp =>
          simp only [decide_eq_true_eq, List.mem_map]
          rintro ⟨q, hq, hq1⟩
          have := addedWalk_bounds (j + 1) fs ps q hq
          omega
        rw [List.map_cons, hfp, ih (j + 1) ps h]
      · simp only [addedWalk, if_neg hfp] at h ⊢
        rw [List.enumFrom_cons, List.filter_cons, if_neg (by simp)]
        have hcongr : List.filter
            (fun q => decide
              (q.1 ∉ ((j, f) :: (addedWalk (j + 1) fs (p :: ps)).1).map Prod.fst))
            (fs.enumFrom (j + 1))
            = List.filter
              (fun q => decide (q.1 ∉ (addedWalk (j + 1) fs (p :: ps)).1.map Prod.fst))
              (fs.enumFrom (j + 1)) := by
          refine List.filter_congr (fun q hq => ?_)
          have hmem := List.mem_enumFrom hq
          have hne : q.1 ≠ j := by
            have := hmem.1
            omega
          simp only [List.map_cons, List.mem_cons, decide_eq_decide]
          tauto
        rw [hcongr]
        exact ih (j + 1) (p :: ps) h

theorem added_positions_walk [DecidableEq α] (pattern fragment : List α)
    (ad : List (Nat × α))
    (h : added_positions_for_fragment pattern fragment = some ad) :
    (addedWalk 0 fragment pattern).1 = ad ∧
      (addedWalk 0 fragment pattern).2 = [] ∧
      ∃ a rest, ad = a :: rest ∧ a.1 ≠ 0 ∧
        (rest.getLastD a).1 ≠ fragment.length - 1 := by
  simp only [added_positions_for_fragment] at h
  split at h
  · exact absurd h (by simp)
  · rename_i hw2
    split at h
    · exact absurd h (by simp)
    · rename_i a rest hw1
      split at h
      · exact absurd h (by simp)
      · rename_i hcond
        simp only [Option.some.injEq] at h
        subst h
        rw [Bool.or_eq_true, not_or] at hcond
        refine ⟨hw1, not_ne_iff.mp hw2, a, rest, rfl, ?_, ?_⟩
        · simpa using hcond.1
        · simpa using hcond.2

theorem added_positions_length [DecidableEq α] (pattern fragment : List α)
    (ad : List (Nat × α))
    (h : added_positions_for_fragment pattern fragment = some ad) :
    fragment.length = pattern.length + ad.length := by
  rcases added_positions_walk pattern fragment ad h with ⟨h1, h2, -⟩
  have := addedWalk_spec 0 fragment pattern
  rw [h1, h2] at this
  simpa using this

theorem added_positions_delete [DecidableEq α] (pattern fragment : List α)
    (ad : List (Nat × α))
    (h : added_positions_for_fragment pattern fragment = some ad) :
    deleteIndices (ad.map Prod.fst) fragment = pattern := by
  rcases added_positions_walk pattern fragment ad h with ⟨h1, h2, -⟩
  have := addedWalk_delete 0 fragment pattern h2
  rw [h1] at this
  exact this

/-! ### Candidate selection in `fragmentation` -/

theorem fragStep_cases [DecidableEq α] (P S : List α) (spans : List (Nat × Nat))
    (start : Nat) (acc : Option (List Nat)) (fl : Nat) (r : List Nat)
    (h : fragStep P S spans start acc fl = some r) :
    acc = some r ∨ (start + fl ≤ S.length ∧
      insideExactSpan spans start (start + fl - 1) = false ∧
      removed_positions_for_fragment P (window S start fl) = some r) := by
  by_cases hlen : start + fl ≤ S.length
  · cases hins : insideExactSpan spans start (start + fl - 1) with
    | true =>
      left
      simpa [fragStep, hlen, hins] using h
    | false =>
      cases hrm : removed_positions_for_fragment P (window S start fl) with
      | none =>
        left
        simpa [fragStep, hlen, hins, hrm] using h
      | some removed =>
        cases acc with
        | none =>
          right
          have heq : removed = r := by
            simpa [fragStep, hlen, hins, hrm] using h
          exact ⟨hlen, rfl, by rw [heq]⟩
        | some existing =>
          by_cases hlt : removed.length < existing.length
          · right
            have heq : removed = r := by
              simpa [fragStep, hlen, hins, hrm, hlt] using h
            exact ⟨hlen, rfl, by rw [heq]⟩
          · left
            simpa [fragStep, hlen, hins, hrm, hlt] using h
  · left
    simpa [fragStep, hlen] using h

theorem fragStep_mono [DecidableEq α] (P S : List α) (spans : List (Nat × Nat))
    (start : Nat) (v : List Nat) (fl : Nat) :
    ∃ w, fragStep P S spans start (some v) fl = some w ∧
      w.length ≤ v.length := by
  unfold fragStep
  split
  · cases hrm : removed_positions_for_fragment P (window S start fl) with
    | none => exact ⟨v, rfl, le_refl _⟩
    | some removed =>
      by_cases hlt : removed.length < v.length
      · refine ⟨removed, ?_, le_of_lt hlt⟩
        simp [hlt]
      · refine ⟨v, ?_, le_refl _⟩
        simp [hlt]
  · exact ⟨v, rfl, le_refl _⟩

theorem fragStep_best [DecidableEq α] (P S : List α) (spans : List (Nat × Nat))
    (start : Nat) (acc : Option (List Nat)) (fl : Nat) (rem : List Nat)
    (h1 : start + fl ≤ S.length)
    (h2 : insideExactSpan spans start (start + fl - 1) = false)
    (h3 : removed_positions_for_fragment P (window S start fl) = some rem) :
    ∃ w, fragStep P S spans start acc fl = some w ∧
      w.length ≤ rem.length := by
  unfold fragStep
  rw [if_pos (by simp [h1, h2]), h3]
  cases acc with
  | none => exact ⟨rem, rfl, le_refl _⟩
  | some existing =>
    by_cases hlt : rem.length < existing.length
    · refine ⟨rem, ?_, le_refl _⟩
      simp [hlt]
    · refine ⟨existing, ?_, by omega⟩
      simp [hlt]

theorem fragFold_cases [DecidableEq α] (P S : List α) (spans : List (Nat × Nat))
    (start : Nat) :
    ∀ (l : List Nat) (acc : Option (List Nat)) (r : List Nat),
      l.foldl (fragStep P S spans start) acc = some r →
      acc = some r ∨ ∃ fl ∈ l, start + fl ≤ S.length ∧
        insideExactSpan spans start (start + fl - 1) = false ∧
        removed_positions_for_fragment P (window S start fl) = some r := by
  intro l
  induction l with
  | nil => intro acc r h; exact Or.inl h
  | cons a l ih =>
    intro acc r h
    rw [List.foldl_cons] at h
    rcases ih _ r h with hacc | ⟨fl, hfl, hq⟩
    · rcases fragStep_cases P S spans start acc a r hacc with h1 | h2
      · exact Or.inl h1
      · exact Or.inr ⟨a, List.mem_cons_self a l, h2⟩
    · exact Or.inr ⟨fl, List.mem_cons_of_mem a hfl, hq⟩

theorem fragFold_mono [DecidableEq α] (P S : List α) (spans : List (Nat × Nat))
    (start : Nat) :
    ∀ (l : List Nat) (v : List Nat),
      ∃ w, l.foldl (fragStep P S spans start) (some v) = some w ∧
        w.length ≤ v.length := by
  intro l
  induction l with
  | nil => intro v; exact ⟨v, rfl, le_refl _⟩
  | cons a l ih =>
    intro v
    rcases fragStep_mono P S spans start v a with ⟨w1, hw1, hle1⟩
    rcases ih w1 with ⟨w, hw, hle⟩
    rw [List.foldl_cons, hw1]
    exact ⟨w, hw, le_trans hle hle1⟩

theorem fragFold_min [DecidableEq α] (P S : List α) (spans : List (Nat × Nat))
    (start : Nat) :
    ∀ (l : List Nat) (acc : Option (List Nat)) (fl : Nat) (rem : List Nat),
      fl ∈ l → start + fl ≤ S.length →
      insideExactSpan spans start (start + fl - 1) = false →
      removed_positions_for_fragment P (window S start fl) = some rem →
      ∃ w, l.foldl (fragStep P S spans start) acc = some w ∧
        w.length ≤ rem.length := by
  intro l
  induction l with
  | nil =>
    intro acc fl rem hfl
    simp at hfl
  | cons a l ih =>
    intro acc fl rem hfl h1 h2 h3
    rw [List.foldl_cons]
    rcases List.mem_cons.mp hfl with rfl | hfl'
    · rcases fragStep_best P S spans start acc fl rem h1 h2 h3 with ⟨w1, hw1, hle1⟩
      rw [hw1]
      rcases fragFold_mono P S spans start l w1 with ⟨w, hw, hle⟩
      exact ⟨w, hw, le_trans hle hle1⟩
    · exact ih _ fl rem hfl' h1 h2 h3

theorem fragCandidate_spec [DecidableEq α] (P S : List α) (ml : Nat)
    (spans : List (Nat × Nat)) (start : Nat) (r : List Nat)
    (h : fragCandidate P S ml spans start = some r) :
    ∃ fl, ml ≤ fl ∧ fl < P.length ∧ start + fl ≤ S.length ∧
      insideExactSpan spans start (start + fl - 1) = false ∧
      removed_positions_for_fragment P (window S start fl) = some r := by
  rcases fragFold_cases P S spans start _ none r h with h0 | ⟨fl, hfl, hq⟩
  · exact absurd h0 (by simp)
  · rw [List.mem_range'_1] at hfl
    exact ⟨fl, hfl.1, by omega, hq⟩

theorem fragCandidate_min [DecidableEq α] (P S : List α) (ml : Nat)
    (spans : List (Nat × Nat)) (start fl : Nat) (rem : List Nat)
    (hml : ml ≤ fl) (hL : fl < P.length)
    (h1 : start + fl ≤ S.length)
    (h2 : insideExactSpan spans start (start + fl - 1) = false)
    (h3 : removed_positions_for_fragment P (window S start fl) = some rem) :
    ∃ w, fragCandidate P S ml spans start = some w ∧
      w.length ≤ rem.length := by
  apply fragFold_min P S spans start _ none fl rem ?_ h1 h2 h3
  rw [List.mem_range'_1]
  omega

/-! ### The greedy overlap-suppression sweep -/

theorem greedyFilter_sublist (L : Nat) :
    ∀ (e : Int) (l : List FragRecord), (greedyFilter L e l).Sublist l := by
  intro e l
  induction l generalizing e with
  | nil => simp [greedyFilter]
  | cons r rs ih =>
    simp only [greedyFilter]
    split
    · exact List.Sublist.cons₂ r (ih _)
    · exact List.Sublist.cons r (ih _)

theorem greedyFilter_pos_gt (L : Nat) :
    ∀ (e : Int) (l : List FragRecord) (r : FragRecord),
      r ∈ greedyFilter L e l → e < (r.position : Int) := by
  intro e l
  induction l generalizing e with
  | nil => intro r h; simp [greedyFilter] at h
  | cons a rs ih =>
    intro r h
    simp only [greedyFilter] at h
    split at h
    · rename_i hagt
      rcases List.mem_cons.mp h with rfl | h'
      · exact hagt
      · have := ih _ r h'
        omega
    · exact ih _ r h

theorem greedyFilter_pairwise (L : Nat) :
    ∀ (e : Int) (l : List FragRecord),
      (greedyFilter L e l).Pairwise
        (fun a b => a.position + (L - a.removed_indices.length) ≤ b.position) := by
  intro e l
  induction l generalizing e with
  | nil => simp [greedyFilter]
  | cons a rs ih =>
    simp only [greedyFilter]
    split
    · refine List.pairwise_cons.mpr ⟨fun b hb => ?_, ih _⟩
      have := greedyFilter_pos_gt L _ rs b hb
      omega
    · exact ih _

theorem greedyFilter_kept (L : Nat) :
    ∀ (l : List FragRecord) (e : Int),
      l.Pairwise (fun a b => a.position < b.position) →
      ∀ c ∈ l, c ∈ greedyFilter L e l ∨ (c.position : Int) ≤ e ∨
        ∃ r ∈ greedyFilter L e l, r.position < c.position ∧
          (c.position : Int)
            ≤ (r.position : Int) + ((L - r.removed_indices.length : Nat) : Int)
              - 1 := by
  intro l
  induction l with
  | nil =>
    intro e hp c hc
    simp at hc
  | cons a rs ih =>
    intro e hp c hc
    have hp' := List.pairwise_cons.mp hp
    simp only [greedyFilter]
    split
    · rename_i hagt
      rcases List.mem_cons.mp hc with rfl | hc'
      · exact Or.inl (List.mem_cons_self _ _)
      · rcases ih _ hp'.2 c hc' with h1 | h2 | ⟨r, hr, hlt, hle⟩
        · exact Or.inl (List.mem_cons_of_mem _ h1)
        · exact Or.inr (Or.inr ⟨a, List.mem_cons_self _ _, hp'.1 c hc', h2⟩)
        · exact Or.inr (Or.inr ⟨r, List.mem_cons_of_mem _ hr, hlt, hle⟩)
    · rename_i hagt
      rcases List.mem_cons.mp hc with rfl | hc'
      · refine Or.inr (Or.inl ?_)
        omega
      · rcases ih _ hp'.2 c hc' with h1 | h2 | ⟨r, hr, hlt, hle⟩
        · exact Or.inl h1
        · exact Or.inr (Or.inl h2)
        · exact Or.inr (Or.inr ⟨r, hr, hlt, hle⟩)

/-! ### Membership in `fragmentation` -/

theorem fragmentation_results_mem [DecidableEq α] (P S : List α) (ml : Nat)
    (r : FragRecord) :
    r ∈ (List.range (S.length + 1 - ml)).filterMap (fun start =>
        (fragCandidate P S ml (exactSpans P S) start).map
          (fun removed => FragRecord.mk start removed)) ↔
      r.position < S.length + 1 - ml ∧
        fragCandidate P S ml (exactSpans P S) r.position
          = some r.removed_indices := by
  rw [List.mem_filterMap]
  constructor
  · rintro ⟨start, hstart, hmap⟩
    rcases Option.map_eq_some'.mp hmap with ⟨rem, hrem, hr⟩
    subst hr
    exact ⟨List.mem_range.mp hstart, hrem⟩
  · rintro ⟨h1, h2⟩
    refine ⟨r.position, List.mem_range.mpr h1, ?_⟩
    rw [h2]
    rfl

theorem fragmentation_mem [DecidableEq α] (P S : List α) (ml? : Option Nat)
    (r : FragRecord) (h : r ∈ fragmentation P S ml?) :
    P.length ≠ 0 ∧ S.length ≠ 0 ∧
      r.position < S.length + 1 - ml?.getD (P.length - P.length / 4) ∧
      fragCandidate P S (ml?.getD (P.length - P.length / 4)) (exactSpans P S)
        r.position = some r.removed_indices := by
  simp only [fragmentation] at h
  split at h
  · simp at h
  · rename_i hcond
    simp only [Bool.or_eq_true, decide_eq_true_eq, not_or] at hcond
    have hsub := greedyFilter_sublist P.length (-1)
      ((List.range (S.length + 1 - ml?.getD (P.length - P.length / 4))).filterMap
        (fun start =>
          (fragCandidate P S (ml?.getD (P.length - P.length / 4)) (exactSpans P S)
            start).map (fun removed => FragRecord.mk start removed)))
    have hres := hsub.mem h
    rw [fragmentation_results_mem] at hres
    exact ⟨hcond.1, hcond.2, hres.1, hres.2⟩

/-! ### Candidate selection in `extension` -/

theorem extStep_cases [DecidableEq α] (P S : List α) (start : Nat)
    (acc : Option (ExtRecord α)) (fl : Nat) (r : ExtRecord α)
    (h : extStep P S start acc fl = some r) :
    acc = some r ∨ (start + fl ≤ S.length ∧ r.position = start ∧
      added_positions_for_fragment P (window S start fl) = some r.added) := by
  by_cases hlen : S.length < start + fl
  · left
    simpa [extStep, hlen] using h
  · cases had : added_positions_for_fragment P (window S start fl) with
    | none =>
      left
      simpa [extStep, hlen, had] using h
    | some added =>
      right
      have heq : some (⟨start, added⟩ : ExtRecord α) = some r := by
        rw [← h]
        simp [extStep, hlen, had]
      obtain rfl := Option.some.inj heq
      exact ⟨by omega, rfl, rfl⟩

theorem extFold_cases [DecidableEq α] (P S : List α) (start : Nat) :
    ∀ (l : List Nat) (acc : Option (ExtRecord α)) (r : ExtRecord α),
      l.foldl (extStep P S start) acc = some r →
      acc = some r ∨ ∃ fl ∈ l, start + fl ≤ S.length ∧ r.position = start ∧
        added_positions_for_fragment P (window S start fl) = some r.added := by
  intro l
  induction l with
  | nil => intro acc r h; exact Or.inl h
  | cons a l ih =>
    intro acc r h
    rw [List.foldl_cons] at h
    rcases ih _ r h with hacc | ⟨fl, hfl, hq⟩
    · rcases extStep_cases P S start acc a r hacc with h1 | h2
      · exact Or.inl h1
      · exact Or.inr ⟨a, List.mem_cons_self a l, h2⟩
    · exact Or.inr ⟨fl, List.mem_cons_of_mem a hfl, hq⟩

theorem extFold_ge [DecidableEq α] (P S : List α) (start : Nat) :
    ∀ (l : List Nat) (acc : Option (ExtRecord α)) (r : ExtRecord α),
      l.Pairwise (· < ·) →
      l.foldl (extStep P S start) acc = some r →
      ∀ fl ∈ l, start + fl ≤ S.length →
      ∀ ad, added_positions_for_fragment P (window S start fl) = some ad →
      fl ≤ P.length + r.added.length := by
  intro l
  induction l with
  | nil =>
    intro acc r _ _ fl hfl
    simp at hfl
  | cons a l ih =>
    intro acc r hp h fl hfl hflN ad had
    rw [List.foldl_cons] at h
    have hp' := List.pairwise_cons.mp hp
    rcases List.mem_cons.mp hfl with rfl | hfl'
    · have hstep : extStep P S start acc fl = some ⟨start, ad⟩ := by
        simp [extStep, Nat.not_lt.mpr hflN, had]
      rw [hstep] at h
      have hlen_a : fl = P.length + ad.length := by
        have hw := added_positions_length P (window S start fl) ad had
        rw [window_length S start fl hflN] at hw
        exact hw
      rcases extFold_cases P S start l _ r h with hacc | ⟨fl', hfl', hq1, hq2, hq3⟩
      · have hra : r = ⟨start, ad⟩ := (Option.some.inj hacc).symm
        rw [hra]
        exact Nat.le_of_eq hlen_a
      · have hlen_fl' : fl' = P.length + r.added.length := by
          have hw := added_positions_length P (window S start fl') r.added hq3
          rw [window_length S start fl' hq1] at hw
          exact hw
        have hlt := hp'.1 fl' hfl'
        omega
    · exact ih _ r hp'.2 h fl hfl' hflN ad had

theorem extBest_mem [DecidableEq α] (P S : List α) (me start : Nat)
    (r : ExtRecord α) (h : extBest P S me start = some r) :
    r.position = start ∧ ∃ fl, P.length + 1 ≤ fl ∧ fl ≤ P.length + me ∧
      start + fl ≤ S.length ∧
      added_positions_for_fragment P (window S start fl) = some r.added := by
  rcases extFold_cases P S start _ none r h with h0 | ⟨fl, hfl, h1, h2, h3⟩
  · exact absurd h0 (by simp)
  · rw [List.mem_range'_1] at hfl
    exact ⟨h2, fl, hfl.1, by omega, h1, h3⟩

theorem extBest_longest [DecidableEq α] (P S : List α) (me start : Nat)
    (r : ExtRecord α) (h : extBest P S me start = some r)
    (fl : Nat) (ad : List (Nat × α))
    (hfl1 : P.length + 1 ≤ fl) (hfl2 : fl ≤ P.length + me)
    (hflN : start + fl ≤ S.length)
    (had : added_positions_for_fragment P (window S start fl) = some ad) :
    fl ≤ P.length + r.added.length := by
  refine extFold_ge P S start _ none r ?_ h fl ?_ hflN ad had
  · exact List.pairwise_lt_range' _ _
  · rw [List.mem_range'_1]
    omega

theorem extension_mem [DecidableEq α] (P S : List α) (mx : Option Nat)
    (r : ExtRecord α) (h : r ∈ extension P S mx) :
    P.length ≠ 0 ∧ S.length ≠ 0 ∧ r.position + P.length ≤ S.length ∧
      extBest P S (mx.getD (max 1 (P.length / 4))) r.position = some r := by
  simp only [extension] at h
  split at h
  · simp at h
  · rename_i hcond
    simp only [Bool.or_eq_true, decide_eq_true_eq, not_or] at hcond
    rw [List.mem_filterMap] at h
    rcases h with ⟨start, hstart, hbest⟩
    have hpos := (extBest_mem P S _ start r hbest).1
    rw [List.mem_range] at hstart
    subst hpos
    exact ⟨hcond.1, hcond.2, by omega, hbest⟩

/-! ### Membership in the windowed detectors -/

theorem transposition_mem [DecidableEq γ] [Inhabited α] (P S : List α)
    (vfn : α → Int) (afn : α → γ) (req : Bool) (r : TransRecord)
    (h : r ∈ transposition P S vfn afn req) :
    P.length ≠ 0 ∧ r.position + P.length ≤ S.length ∧ r.offset ≠ 0 ∧
      (∀ j < P.length,
        vfn (S.getD (r.position + j) default) - vfn (P.getD j default)
          = r.offset) ∧
      (req = true → ∀ j < P.length,
        afn (S.getD (r.position + j) default) = afn (P.getD j default)) := by
  simp only [transposition] at h
  split at h
  · simp at h
  · rename_i hL
    rw [List.mem_filterMap] at h
    rcases h with ⟨i, hi, hbody⟩
    rw [List.mem_range] at hi
    split at hbody
    · simp at hbody
    · rename_i haux
      split at hbody
      · simp at hbody
      · rename_i hoff
        split at hbody
        · rename_i hall
          obtain rfl := (Option.some.inj hbody)
          simp only [List.all_eq_true, List.mem_range, decide_eq_true_eq] at hall
          refine ⟨hL, by show i + P.length ≤ S.length; omega, hoff, ?_, ?_⟩
          · intro j hj
            have := hall j hj
            rwa [window_getD S i P.length j default hj] at this
          · intro hreq j hj
            rw [hreq, Bool.true_and, Bool.not_eq_true', List.all_eq_false] at haux
            push_neg at haux
            rw [← window_getD S i P.length j default hj]
            have hk := haux j (List.mem_range.mpr hj)
            simpa using hk
        · simp at hbody

theorem local_aux_changes_mem [DecidableEq β] [DecidableEq γ] [Inhabited α]
    (P S : List α) (pfn : α → β) (afn : α → γ) (mc : Option Nat)
    (r : ChangeRecord γ) (h : r ∈ local_aux_changes P S pfn afn mc) :
    r.position + P.length ≤ S.length := by
  simp only [local_aux_changes] at h
  split at h
  · simp at h
  · rw [List.mem_filterMap] at h
    rcases h with ⟨i, hi, hbody⟩
    rw [List.mem_range] at hi
    have hpos : r.position = i := by
      split at hbody
      · simp at hbody
      · split at hbody
        · obtain rfl := Option.some.inj hbody
          rfl
        · simp at hbody
    omega

theorem local_value_changes_mem [DecidableEq β] [DecidableEq γ] [Inhabited α]
    (P S : List α) (pfn : α → β) (afn : α → γ) (mc : Option Nat) (req : Bool)
    (r : ChangeRecord β) (h : r ∈ local_value_changes P S pfn afn mc req) :
    r.position + P.length ≤ S.length := by
  simp only [local_value_changes] at h
  split at h
  · simp at h
  · rw [List.mem_filterMap] at h
    rcases h with ⟨i, hi, hbody⟩
    rw [List.mem_range] at hi
    have hpos : r.position = i := by
      split at hbody
      · simp at hbody
      · split at hbody
        · obtain rfl := Option.some.inj hbody
          rfl
        · simp at hbody
    omega

/-! ### Claim theorems -/

/-- C1: `repetition(P, S)` returns exactly the start indices `i` with
`i + len(P) ≤ len(S)` at which the window of `S` equals `P` element-wise, in
strictly ascending order without duplicates; the empty pattern yields `[]`. -/
theorem repetition_correct [DecidableEq α] [Inhabited α] (P S : List α) :
    (P ≠ [] → ∀ i : Nat, i ∈ repetition P S ↔
      i + P.length ≤ S.length ∧
        ∀ j < P.length, S.getD (i + j) default = P.getD j default) ∧
    (repetition P S).Pairwise (· < ·) ∧
    repetition ([] : List α) S = [] := by
  refine ⟨?_, ?_, rfl⟩
  · intro hP i
    have hL : P.length ≠ 0 := fun h => hP (List.length_eq_zero.mp h)
    rw [repetition, if_neg hL, List.mem_filter, List.mem_range, decide_eq_true_eq]
    constructor
    · rintro ⟨h1, h2⟩
      have hb : i + P.length ≤ S.length := by omega
      exact ⟨hb, (window_eq_iff S P i hb).mp h2⟩
    · rintro ⟨h1, h2⟩
      exact ⟨by omega, (window_eq_iff S P i h1).mpr h2⟩
  · rw [repetition]
    split
    · simp
    · exact (List.pairwise_lt_range _).filter _

/-- Concrete instance of C1 at `P = [1,2]`, `S = [0,1,2,1,2,3]`, `i = 1`. -/
theorem repetition_correct_witness :
    (1 : Nat) ∈ repetition ([1, 2] : List Int) [0, 1, 2, 1, 2, 3] ↔
      1 + ([1, 2] : List Int).length ≤ ([0, 1, 2, 1, 2, 3] : List Int).length ∧
        ∀ j < ([1, 2] : List Int).length,
          ([0, 1, 2, 1, 2, 3] : List Int).getD (1 + j) default
            = ([1, 2] : List Int).getD j default :=
  (repetition_correct [1, 2] [0, 1, 2, 1, 2, 3]).1 (by decide) 1

/-- C2: round-trip soundness of the edit-based detectors.  Deleting the
reported removed indices from the pattern reproduces the matched fragment
window of `S`, and deleting the reported added indices from the matched
extension window of `S` reproduces the pattern. -/
theorem edit_roundtrip [DecidableEq α] (P S : List α) (ml mx : Option Nat) :
    (∀ r ∈ fragmentation P S ml,
      deleteIndices r.removed_indices P
        = window S r.position (P.length - r.removed_indices.length)) ∧
    (∀ r ∈ extension P S mx,
      deleteIndices (r.added.map Prod.fst)
        (window S r.position (P.length + r.added.length)) = P) := by
  constructor
  · intro r hr
    rcases fragmentation_mem P S ml r hr with ⟨-, -, -, hcand⟩
    rcases fragCandidate_spec P S _ _ _ _ hcand with ⟨fl, h1, h2, h3, h4, h5⟩
    have hlen := removed_positions_length P _ _ h5
    rw [window_length S r.position fl h3] at hlen
    have hfl : P.length - r.removed_indices.length = fl := by omega
    rw [hfl]
    exact removed_positions_delete P _ _ h5
  · intro r hr
    rcases extension_mem P S mx r hr with ⟨-, -, -, hbest⟩
    rcases extBest_mem P S _ _ r hbest with ⟨-, fl, hf1, hf2, hf3, hf4⟩
    have hlen := added_positions_length P _ _ hf4
    rw [window_length S r.position fl hf3] at hlen
    rw [← hlen]
    exact added_positions_delete P _ _ hf4

/-- Concrete instance of C2 on the two library test scenarios. -/
theorem edit_roundtrip_witness :
    deleteIndices (FragRecord.mk 0 [2]).removed_indices ([1, 2, 3, 4] : List Int)
        = window ([1, 2, 4, 5] : List Int) (FragRecord.mk 0 [2]).position
            (([1, 2, 3, 4] : List Int).length
              - (FragRecord.mk 0 [2]).removed_indices.length) ∧
      deleteIndices ((ExtRecord.mk 0 [(1, 9)] : ExtRecord Int).added.map Prod.fst)
        (window ([1, 9, 2, 3, 0] : List Int)
          (ExtRecord.mk 0 [(1, 9)] : ExtRecord Int).position
          (([1, 2, 3] : List Int).length
            + (ExtRecord.mk 0 [(1, 9)] : ExtRecord Int).added.length))
        = ([1, 2, 3] : List Int) :=
  ⟨(edit_roundtrip [1, 2, 3, 4] [1, 2, 4, 5] none none).1 ⟨0, [2]⟩ (by decide),
    (edit_roundtrip [1, 2, 3] [1, 9, 2, 3, 0] none (some 2)).2 ⟨0, [(1, 9)]⟩
      (by decide)⟩

/-- C5: every `transposition` record has a nonzero offset that is realized at
every pattern index, with aux equality when required. -/
theorem transposition_sound [DecidableEq γ] [Inhabited α] (P S : List α)
    (vfn : α → Int) (afn : α → γ) (req : Bool) :
    ∀ r ∈ transposition P S vfn afn req,
      r.offset ≠ 0 ∧
      (∀ j < P.length,
        vfn (S.getD (r.position + j) default) - vfn (P.getD j default)
          = r.offset) ∧
      (req = true → ∀ j < P.length,
        afn (S.getD (r.position + j) default) = afn (P.getD j default)) := by
  intro r h
  rcases transposition_mem P S vfn afn req r h with ⟨-, -, h3, h4, h5⟩
  exact ⟨h3, h4, h5⟩

/-- Concrete instance of C5 at the library's transposition test scenario. -/
theorem transposition_sound_witness :
    (⟨3, 1⟩ : TransRecord).offset ≠ 0 ∧
      (∀ j < ([1, 2, 3] : List Int).length,
        (fun x : Int => x)
            (([1, 2, 3, 2, 3, 4] : List Int).getD
              ((⟨3, 1⟩ : TransRecord).position + j) default)
          - (fun x : Int => x) (([1, 2, 3] : List Int).getD j default)
          = (⟨3, 1⟩ : TransRecord).offset) ∧
      (true = true → ∀ j < ([1, 2, 3] : List Int).length,
        (fun _ : Int => (0 : Int))
            (([1, 2, 3, 2, 3, 4] : List Int).getD
              ((⟨3, 1⟩ : TransRecord).position + j) default)
          = (fun _ : Int => (0 : Int)) (([1, 2, 3] : List Int).getD j default)) :=
  transposition_sound [1, 2, 3] [1, 2, 3, 2, 3, 4] (fun x => x) (fun _ => 0) true
    ⟨3, 1⟩ (by decide)

/-- C9: with the default `min_len`, a pattern of length 1, 2 or 3 yields no
fragmentations, because `min_len = L - L / 4 = L` while only window lengths
strictly below `L` are scanned. -/
theorem fragmentation_short_pattern [DecidableEq α] (P S : List α)
    (h1 : 1 ≤ P.length) (h3 : P.length ≤ 3) :
    fragmentation P S none = [] := by
  simp only [fragmentation, Option.getD_none]
  split
  · rfl
  · have hml : P.length - (P.length - P.length / 4) = 0 := by omega
    have hcand : ∀ start, fragCandidate P S (P.length - P.length / 4)
        (exactSpans P S) start = none := by
      intro start
      rw [fragCandidate, hml]
      rfl
    have hnil : (List.range (S.length + 1 - (P.length - P.length / 4))).filterMap
        (fun start =>
          (fragCandidate P S (P.length - P.length / 4) (exactSpans P S)
            start).map (fun removed => FragRecord.mk start removed)) = [] := by
      rw [List.filterMap_eq_nil_iff]
      intro a ha
      rw [hcand a]
      rfl
    rw [hnil]
    rfl

/-- Concrete instance of C9 at `P = [1,2]`, `S = [1,2,9]`. -/
theorem fragmentation_short_pattern_witness :
    fragmentation ([1, 2] : List Int) [1, 2, 9] none = [] :=
  fragmentation_short_pattern [1, 2] [1, 2, 9] (by decide) (by decide)

/-- C10: each `fragmentation` record's removed indices are strictly
increasing, lie inside the pattern, are non-empty, and their count plus the
matched fragment length is exactly the pattern length. -/
theorem fragmentation_removed_invariants [DecidableEq α] (P S : List α)
    (ml? : Option Nat) :
    ∀ r ∈ fragmentation P S ml?,
      r.removed_indices.Pairwise (· < ·) ∧
      (∀ x ∈ r.removed_indices, x < P.length) ∧
      r.removed_indices ≠ [] ∧
      ∃ fl, ml?.getD (P.length - P.length / 4) ≤ fl ∧ fl < P.length ∧
        r.position + fl ≤ S.length ∧
        removed_positions_for_fragment P (window S r.position fl)
          = some r.removed_indices ∧
        r.removed_indices.length + fl = P.length := by
  intro r hr
  rcases fragmentation_mem P S ml? r hr with ⟨-, -, -, hcand⟩
  rcases fragCandidate_spec P S _ _ _ _ hcand with ⟨fl, h1, h2, h3, h4, h5⟩
  have hlen := removed_positions_length P _ _ h5
  rw [window_length S r.position fl h3] at hlen
  refine ⟨removedAux_pairwise 0 P _ _ h5, ?_, ?_, fl, h1, h2, h3, h5, hlen⟩
  · intro x hx
    have := removedAux_bounds 0 P _ _ h5 x hx
    omega
  · intro hnil
    rw [hnil] at hlen
    simp only [List.length_nil] at hlen
    omega

/-- Concrete instance of C10 at the library's fragmentation test scenario. -/
theorem fragmentation_removed_invariants_witness :
    (FragRecord.mk 0 [2]).removed_indices.Pairwise (· < ·) ∧
      (∀ x ∈ (FragRecord.mk 0 [2]).removed_indices,
        x < ([1, 2, 3, 4] : List Int).length) ∧
      (FragRecord.mk 0 [2]).removed_indices ≠ [] ∧
      ∃ fl, (none : Option Nat).getD
          (([1, 2, 3, 4] : List Int).length
            - ([1, 2, 3, 4] : List Int).length / 4) ≤ fl ∧
        fl < ([1, 2, 3, 4] : List Int).length ∧
        (FragRecord.mk 0 [2]).position + fl ≤ ([1, 2, 4, 5] : List Int).length ∧
        removed_positions_for_fragment ([1, 2, 3, 4] : List Int)
          (window ([1, 2, 4, 5] : List Int) (FragRecord.mk 0 [2]).position fl)
          = some (FragRecord.mk 0 [2]).removed_indices ∧
        (FragRecord.mk 0 [2]).removed_indices.length + fl
          = ([1, 2, 3, 4] : List Int).length :=
  fragmentation_removed_invariants [1, 2, 3, 4] [1, 2, 4, 5] none ⟨0, [2]⟩
    (by decide)

/-- C6: for a non-empty pattern, `inversion` fixes the axis once as the value
of `P[0]` and reports `i` iff the window fits, `value_fn(S[i])` equals the
axis, aux values match pattern-wise when required, and every window value is
the mirror of the pattern value around the axis. -/
theorem inversion_characterization [DecidableEq γ] [Inhabited α]
    (P S : List α) (vfn : α → Int) (afn : α → γ) (req : Bool) (hP : P ≠ []) :
    ∀ i : Nat, i ∈ inversion P S vfn afn req ↔
      (i + P.length ≤ S.length ∧
        vfn (S.getD i default) = vfn (P.getD 0 default) ∧
        (req = true → ∀ j < P.length,
          afn (S.getD (i + j) default) = afn (P.getD j default)) ∧
        ∀ j < P.length,
          vfn (S.getD (i + j) default)
            = vfn (P.getD 0 default)
              - (vfn (P.getD j default) - vfn (P.getD 0 default))) := by
  intro i
  have hL : P.length ≠ 0 := fun h => hP (List.length_eq_zero.mp h)
  have h00 : (window S i P.length).getD 0 default = S.getD i default := by
    have h0 := window_getD S i P.length 0 default (by omega)
    rwa [Nat.add_zero] at h0
  simp only [inversion]
  rw [if_neg hL, List.mem_filter, List.mem_range]
  constructor
  · rintro ⟨h1, h2⟩
    have hb : i + P.length ≤ S.length := by omega
    simp only [Bool.and_eq_true, Bool.or_eq_true, Bool.not_eq_true',
      decide_eq_true_eq, List.all_eq_true, List.mem_range] at h2
    obtain ⟨⟨hfirst, haux⟩, hmir⟩ := h2
    refine ⟨hb, ?_, ?_, ?_⟩
    · rw [← h00]
      exact hfirst
    · intro hreq j hj
      rcases haux with hf | hall
      · rw [hreq] at hf
        simp at hf
      · have := hall j hj
        rwa [window_getD S i P.length j default hj] at this
    · intro j hj
      have := hmir j hj
      rwa [window_getD S i P.length j default hj] at this
  · rintro ⟨hb, hfirst, haux, hmir⟩
    refine ⟨by omega, ?_⟩
    simp only [Bool.and_eq_true, Bool.or_eq_true, Bool.not_eq_true',
      decide_eq_true_eq, List.all_eq_true, List.mem_range]
    refine ⟨⟨?_, ?_⟩, ?_⟩
    · rw [h00]
      exact hfirst
    · cases req with
      | false => exact Or.inl rfl
      | true =>
        refine Or.inr (fun j hj => ?_)
        rw [window_getD S i P.length j default hj]
        exact haux rfl j hj
    · intro j hj
      rw [window_getD S i P.length j default hj]
      exact hmir j hj

/-- Concrete instance of C6 at the library's inversion test scenario. -/
theorem inversion_characterization_witness :
    (0 : Nat) ∈ inversion ([0, 1, -1] : List Int) [0, -1, 1, 0]
        (fun x => x) (fun _ => (0 : Int)) true ↔
      (0 + ([0, 1, -1] : List Int).length ≤ ([0, -1, 1, 0] : List Int).length ∧
        (fun x : Int => x) (([0, -1, 1, 0] : List Int).getD 0 default)
          = (fun x : Int => x) (([0, 1, -1] : List Int).getD 0 default) ∧
        (true = true → ∀ j < ([0, 1, -1] : List Int).length,
          (fun _ : Int => (0 : Int)) (([0, -1, 1, 0] : List Int).getD (0 + j) default)
            = (fun _ : Int => (0 : Int)) (([0, 1, -1] : List Int).getD j default)) ∧
        ∀ j < ([0, 1, -1] : List Int).length,
          (fun x : Int => x) (([0, -1, 1, 0] : List Int).getD (0 + j) default)
            = (fun x : Int => x) (([0, 1, -1] : List Int).getD 0 default)
              - ((fun x : Int => x) (([0, 1, -1] : List Int).getD j default)
                - (fun x : Int => x) (([0, 1, -1] : List Int).getD 0 default))) :=
  inversion_characterization [0, 1, -1] [0, -1, 1, 0] (fun x => x)
    (fun _ => (0 : Int)) true (by decide) 0

/-- C3: every `extension` record has a non-empty added list whose first index
is not `0` and whose last index is not the final window index; positions are
strictly increasing (at most one record per start); and the record's window is
at least as long as any qualifying window at the same start. -/
theorem extension_records [DecidableEq α] [Inhabited α] (P S : List α)
    (mx : Option Nat) :
    (∀ r ∈ extension P S mx,
      r.added ≠ [] ∧ (r.added.headD (0, default)).1 ≠ 0 ∧
        (r.added.getLastD (0, default)).1 ≠ P.length + r.added.length - 1) ∧
    ((extension P S mx).map ExtRecord.position).Pairwise (· < ·) ∧
    (∀ r ∈ extension P S mx, ∀ fl (ad : List (Nat × α)),
      P.length + 1 ≤ fl → fl ≤ P.length + mx.getD (max 1 (P.length / 4)) →
      r.position + fl ≤ S.length →
      added_positions_for_fragment P (window S r.position fl) = some ad →
      fl ≤ P.length + r.added.length) := by
  refine ⟨?_, ?_, ?_⟩
  · intro r hr
    rcases extension_mem P S mx r hr with ⟨-, -, -, hbest⟩
    rcases extBest_mem P S _ _ r hbest with ⟨-, fl, hf1, hf2, hf3, hf4⟩
    have hlen := added_positions_length P _ _ hf4
    rw [window_length S r.position fl hf3] at hlen
    rcases added_positions_walk P _ _ hf4 with ⟨-, -, a, rest, hcons, hfirst, hlast⟩
    rw [window_length S r.position fl hf3] at hlast
    rw [hcons]
    refine ⟨by simp, by simpa using hfirst, ?_⟩
    rw [List.getLastD_cons]
    rw [hcons] at hlen
    intro hcontra
    apply hlast
    rw [hcontra, hlen]
  · simp only [extension]
    split
    · simp
    · rw [List.pairwise_map, List.pairwise_filterMap]
      refine (List.pairwise_lt_range _).imp ?_
      intro a b hab r hr r' hr'
      rw [(extBest_mem P S _ a r (Option.mem_def.mp hr)).1,
        (extBest_mem P S _ b r' (Option.mem_def.mp hr')).1]
      exact hab
  · intro r hr fl ad hf1 hf2 hf3 had
    rcases extension_mem P S mx r hr with ⟨-, -, -, hbest⟩
    exact extBest_longest P S _ _ r hbest fl ad hf1 hf2 hf3 had

/-- Concrete instance of C3 at the library's extension test scenario. -/
theorem extension_records_witness :
    ((ExtRecord.mk 0 [(1, 9)] : ExtRecord Int).added ≠ [] ∧
      ((ExtRecord.mk 0 [(1, 9)] : ExtRecord Int).added.headD (0, default)).1
        ≠ 0 ∧
      ((ExtRecord.mk 0 [(1, 9)] : ExtRecord Int).added.getLastD (0, default)).1
        ≠ ([1, 2, 3] : List Int).length
          + (ExtRecord.mk 0 [(1, 9)] : ExtRecord Int).added.length - 1) ∧
    ((extension ([1, 2, 3] : List Int) [1, 9, 2, 3, 0] (some 2)).map
      ExtRecord.position).Pairwise (· < ·) ∧
    4 ≤ ([1, 2, 3] : List Int).length
      + (ExtRecord.mk 0 [(1, 9)] : ExtRecord Int).added.length :=
  ⟨(extension_records [1, 2, 3] [1, 9, 2, 3, 0] (some 2)).1 ⟨0, [(1, 9)]⟩
      (by decide),
    (extension_records [1, 2, 3] [1, 9, 2, 3, 0] (some 2)).2.1,
    (extension_records [1, 2, 3] [1, 9, 2, 3, 0] (some 2)).2.2 ⟨0, [(1, 9)]⟩
      (by decide) 4 [(1, 9)] (by decide) (by decide) (by decide) (by decide)⟩

theorem fragmentation_eq [DecidableEq α] (P S : List α) (ml? : Option Nat)
    (hL : P.length ≠ 0) (hN : S.length ≠ 0) :
    fragmentation P S ml? = greedyFilter P.length (-1)
      ((List.range (S.length + 1 - ml?.getD (P.length - P.length / 4))).filterMap
        (fun start =>
          (fragCandidate P S (ml?.getD (P.length - P.length / 4))
            (exactSpans P S) start).map
            (fun removed => FragRecord.mk start removed))) := by
  simp only [fragmentation]
  rw [if_neg (by simp [hL, hN])]

/-- C4: `fragmentation` keeps per start the candidate with the fewest removed
indices, and de-overlaps greedily left to right: records are pairwise
non-overlapping, each record is its start's best candidate, and a candidate is
dropped only when its start falls inside an earlier kept record's window. -/
theorem fragmentation_selection [DecidableEq α] (P S : List α)
    (ml? : Option Nat) :
    (∀ r ∈ fragmentation P S ml?, ∀ fl (rem : List Nat),
      ml?.getD (P.length - P.length / 4) ≤ fl → fl < P.length →
      r.position + fl ≤ S.length →
      insideExactSpan (exactSpans P S) r.position (r.position + fl - 1) = false →
      removed_positions_for_fragment P (window S r.position fl) = some rem →
      r.removed_indices.length ≤ rem.length) ∧
    (fragmentation P S ml?).Pairwise
      (fun a b => a.position + (P.length - a.removed_indices.length)
        ≤ b.position) ∧
    (∀ r ∈ fragmentation P S ml?,
      fragCandidate P S (ml?.getD (P.length - P.length / 4)) (exactSpans P S)
        r.position = some r.removed_indices) ∧
    (∀ start (rem : List Nat), P.length ≠ 0 → S.length ≠ 0 →
      start < S.length + 1 - ml?.getD (P.length - P.length / 4) →
      fragCandidate P S (ml?.getD (P.length - P.length / 4)) (exactSpans P S)
        start = some rem →
      (FragRecord.mk start rem ∈ fragmentation P S ml? ∨
        ∃ r ∈ fragmentation P S ml?, r.position < start ∧
          start < r.position + (P.length - r.removed_indices.length))) := by
  refine ⟨?_, ?_, ?_, ?_⟩
  · intro r hr fl rem hml hfl hN hins hrm
    rcases fragmentation_mem P S ml? r hr with ⟨-, -, -, hcand⟩
    rcases fragCandidate_min P S _ (exactSpans P S) r.position fl rem hml hfl
      hN hins hrm with ⟨w, hw, hwle⟩
    rw [hcand] at hw
    rw [Option.some.inj hw]
    exact hwle
  · simp only [fragmentation]
    split
    · simp
    · exact greedyFilter_pairwise _ _ _
  · intro r hr
    exact (fragmentation_mem P S ml? r hr).2.2.2
  · intro start rem hL hN hstart hcand
    rw [fragmentation_eq P S ml? hL hN]
    have hmem : FragRecord.mk start rem ∈
        (List.range (S.length + 1 - ml?.getD (P.length - P.length / 4))).filterMap
          (fun s =>
            (fragCandidate P S (ml?.getD (P.length - P.length / 4))
              (exactSpans P S) s).map
              (fun removed => FragRecord.mk s removed)) := by
      rw [fragmentation_results_mem]
      exact ⟨hstart, hcand⟩
    have hpw : ((List.range (S.length + 1 - ml?.getD (P.length - P.length / 4))).filterMap
        (fun s =>
          (fragCandidate P S (ml?.getD (P.length - P.length / 4))
            (exactSpans P S) s).map
            (fun removed => FragRecord.mk s removed))).Pairwise
        (fun a b => a.position < b.position) := by
      rw [List.pairwise_filterMap]
      refine (List.pairwise_lt_range _).imp ?_
      intro a b hab c hc c' hc'
      rcases Option.map_eq_some'.mp (Option.mem_def.mp hc) with ⟨w, hw, rfl⟩
      rcases Option.map_eq_some'.mp (Option.mem_def.mp hc') with ⟨w', hw', rfl⟩
      simpa using hab
    rcases greedyFilter_kept P.length _ (-1) hpw _ hmem with h1 | h2 | ⟨q, hq, hq1, hq2⟩
    · exact Or.inl h1
    · exact absurd h2 (by omega)
    · refine Or.inr ⟨q, hq, by simpa using hq1, ?_⟩
      have hcast : ((FragRecord.mk start rem).position : Int) = (start : Int) := rfl
      rw [hcast] at hq2
      omega

/-- Concrete instance of C4 at the library's fragmentation test scenario. -/
theorem fragmentation_selection_witness :
    (FragRecord.mk 0 [2]).removed_indices.length ≤ ([2] : List Nat).length ∧
    (fragmentation ([1, 2, 3, 4] : List Int) [1, 2, 4, 5] none).Pairwise
      (fun a b => a.position
        + (([1, 2, 3, 4] : List Int).length - a.removed_indices.length)
        ≤ b.position) ∧
    fragCandidate ([1, 2, 3, 4] : List Int) [1, 2, 4, 5]
      ((none : Option Nat).getD (([1, 2, 3, 4] : List Int).length
        - ([1, 2, 3, 4] : List Int).length / 4))
      (exactSpans ([1, 2, 3, 4] : List Int) [1, 2, 4, 5])
      (FragRecord.mk 0 [2]).position = some (FragRecord.mk 0 [2]).removed_indices ∧
    (FragRecord.mk 0 [2] ∈ fragmentation ([1, 2, 3, 4] : List Int) [1, 2, 4, 5] none ∨
      ∃ r ∈ fragmentation ([1, 2, 3, 4] : List Int) [1, 2, 4, 5] none,
        r.position < 0 ∧
          0 < r.position
            + (([1, 2, 3, 4] : List Int).length - r.removed_indices.length)) :=
  ⟨(fragmentation_selection [1, 2, 3, 4] [1, 2, 4, 5] none).1 ⟨0, [2]⟩
      (by decide) 3 [2] (by decide) (by decide) (by decide) (by decide) (by decide),
    (fragmentation_selection [1, 2, 3, 4] [1, 2, 4, 5] none).2.1,
    (fragmentation_selection [1, 2, 3, 4] [1, 2, 4, 5] none).2.2.1 ⟨0, [2]⟩
      (by decide),
    (fragmentation_selection [1, 2, 3, 4] [1, 2, 4, 5] none).2.2.2 0 [2]
      (by decide) (by decide) (by decide) (by decide)⟩

/-- C7: every match record of every detector starts at a position whose
matched window (pattern length for the windowed detectors, fragment length for
fragmentation, extended window length for extension) lies entirely inside the
sequence. -/
theorem position_bounds [DecidableEq α] [DecidableEq β] [DecidableEq γ]
    [Inhabited α] (P S : List α) (vfn : α → Int) (pfn : α → β) (afn : α → γ)
    (req : Bool) (mc ml mx : Option Nat) :
    (∀ i ∈ repetition P S, i + P.length ≤ S.length) ∧
    (∀ r ∈ transposition P S vfn afn req, r.position + P.length ≤ S.length) ∧
    (∀ i ∈ retrograde P S pfn afn req, i + P.length ≤ S.length) ∧
    (∀ i ∈ inversion P S vfn afn req, i + P.length ≤ S.length) ∧
    (∀ r ∈ local_aux_changes P S pfn afn mc,
      r.position + P.length ≤ S.length) ∧
    (∀ r ∈ local_value_changes P S pfn afn mc req,
      r.position + P.length ≤ S.length) ∧
    (∀ r ∈ fragmentation P S ml,
      r.position + (P.length - r.removed_indices.length) ≤ S.length) ∧
    (∀ r ∈ extension P S mx,
      r.position + (P.length + r.added.length) ≤ S.length) := by
  refine ⟨?_, ?_, ?_, ?_, ?_, ?_, ?_, ?_⟩
  · intro i hi
    rw [repetition] at hi
    split at hi
    · simp at hi
    · rw [List.mem_filter, List.mem_range] at hi
      omega
  · exact fun r hr => (transposition_mem P S vfn afn req r hr).2.1
  · intro i hi
    simp only [retrograde] at hi
    split at hi
    · simp at hi
    · rw [List.mem_filter, List.mem_range] at hi
      omega
  · intro i hi
    simp only [inversion] at hi
    split at hi
    · simp at hi
    · rw [List.mem_filter, List.mem_range] at hi
      omega
  · exact fun r hr => local_aux_changes_mem P S pfn afn mc r hr
  · exact fun r hr => local_value_changes_mem P S pfn afn mc req r hr
  · intro r hr
    rcases fragmentation_mem P S ml r hr with ⟨-, -, -, hcand⟩
    rcases fragCandidate_spec P S _ _ _ _ hcand with ⟨fl, h1, h2, h3, h4, h5⟩
    have hlen := removed_positions_length P _ _ h5
    rw [window_length S r.position fl h3] at hlen
    omega
  · intro r hr
    rcases extension_mem P S mx r hr with ⟨-, -, -, hbest⟩
    rcases extBest_mem P S _ _ r hbest with ⟨-, fl, hf1, hf2, hf3, hf4⟩
    have hlen := added_positions_length P _ _ hf4
    rw [window_length S r.position fl hf3] at hlen
    omega

/-- Concrete instances of C7: one record of each of the eight detectors, over
pairs `(primary, aux)` of integers. -/
theorem position_bounds_witness :
    1 + ([(1, 1), (2, 1)] : List (Int × Int)).length
        ≤ ([(0, 1), (1, 1), (2, 1)] : List (Int × Int)).length ∧
      (⟨0, 1⟩ : TransRecord).position + ([(1, 1), (2, 1)] : List (Int × Int)).length
        ≤ ([(2, 1), (3, 1)] : List (Int × Int)).length ∧
      0 + ([(1, 1), (2, 2)] : List (Int × Int)).length
        ≤ ([(2, 2), (1, 1)] : List (Int × Int)).length ∧
      0 + ([(0, 1), (1, 1)] : List (Int × Int)).length
        ≤ ([(0, 1), (-1, 1)] : List (Int × Int)).length ∧
      (ChangeRecord.mk 0 [(1, 5)] : ChangeRecord Int).position
          + ([(1, 1), (2, 1), (3, 1)] : List (Int × Int)).length
        ≤ ([(1, 1), (2, 5), (3, 1)] : List (Int × Int)).length ∧
      (ChangeRecord.mk 0 [(1, 9)] : ChangeRecord Int).position
          + ([(1, 1), (2, 1), (3, 1)] : List (Int × Int)).length
        ≤ ([(1, 1), (9, 1), (3, 1)] : List (Int × Int)).length ∧
      (FragRecord.mk 0 [2]).position
          + (([(1, 0), (2, 0), (3, 0), (4, 0)] : List (Int × Int)).length
            - (FragRecord.mk 0 [2]).removed_indices.length)
        ≤ ([(1, 0), (2, 0), (4, 0), (5, 0)] : List (Int × Int)).length ∧
      (ExtRecord.mk 0 [(1, (9, 0))] : ExtRecord (Int × Int)).position
          + (([(1, 0), (2, 0), (3, 0)] : List (Int × Int)).length
            + (ExtRecord.mk 0 [(1, (9, 0))] : ExtRecord (Int × Int)).added.length)
        ≤ ([(1, 0), (9, 0), (2, 0), (3, 0), (0, 0)] : List (Int × Int)).length :=
  ⟨(position_bounds [(1, 1), (2, 1)] [(0, 1), (1, 1), (2, 1)] Prod.fst Prod.fst
      Prod.snd true none none none).1 1 (by decide),
    (position_bounds [(1, 1), (2, 1)] [(2, 1), (3, 1)] Prod.fst Prod.fst
      Prod.snd true none none none).2.1 ⟨0, 1⟩ (by decide),
    (position_bounds [(1, 1), (2, 2)] [(2, 2), (1, 1)] Prod.fst Prod.fst
      Prod.snd true none none none).2.2.1 0 (by decide),
    (position_bounds [(0, 1), (1, 1)] [(0, 1), (-1, 1)] Prod.fst Prod.fst
      Prod.snd true none none none).2.2.2.1 0 (by decide),
    (position_bounds [(1, 1), (2, 1), (3, 1)] [(1, 1), (2, 5), (3, 1)] Prod.fst
      Prod.fst Prod.snd true (some 1) none none).2.2.2.2.1 ⟨0, [(1, 5)]⟩
      (by decide),
    (position_bounds [(1, 1), (2, 1), (3, 1)] [(1, 1), (9, 1), (3, 1)] Prod.fst
      Prod.fst Prod.snd true (some 1) none none).2.2.2.2.2.1 ⟨0, [(1, 9)]⟩
      (by decide),
    (position_bounds [(1, 0), (2, 0), (3, 0), (4, 0)]
      [(1, 0), (2, 0), (4, 0), (5, 0)] Prod.fst Prod.fst Prod.snd true none
      none none).2.2.2.2.2.2.1 ⟨0, [2]⟩ (by decide),
    (position_bounds [(1, 0), (2, 0), (3, 0)]
      [(1, 0), (9, 0), (2, 0), (3, 0), (0, 0)] Prod.fst Prod.fst Prod.snd true
      none none (some 2)).2.2.2.2.2.2.2 ⟨0, [(1, (9, 0))]⟩ (by decide)⟩

/-- C8: all eight detectors return the empty collection on an empty pattern or
an empty sequence. -/
theorem degenerate_inputs [DecidableEq α] [DecidableEq β] [DecidableEq γ]
    [Inhabited α] (P S : List α) (vfn : α → Int) (pfn : α → β) (afn : α → γ)
    (req : Bool) (mc ml mx : Option Nat) :
    repetition ([] : List α) S = [] ∧ repetition P ([] : List α) = [] ∧
    transposition ([] : List α) S vfn afn req = [] ∧
    transposition P ([] : List α) vfn afn req = [] ∧
    retrograde ([] : List α) S pfn afn req = [] ∧
    retrograde P ([] : List α) pfn afn req = [] ∧
    inversion ([] : List α) S vfn afn req = [] ∧
    inversion P ([] : List α) vfn afn req = [] ∧
    local_aux_changes ([] : List α) S pfn afn mc = [] ∧
    local_aux_changes P ([] : List α) pfn afn mc = [] ∧
    local_value_changes ([] : List α) S pfn afn mc req = [] ∧
    local_value_changes P ([] : List α) pfn afn mc req = [] ∧
    fragmentation ([] : List α) S ml = [] ∧
    fragmentation P ([] : List α) ml = [] ∧
    extension ([] : List α) S mx = [] ∧
    extension P ([] : List α) mx = [] := by
  have h0 : ∀ a : α, ∀ l : List α, ([] : List α).length + 1 - (a :: l).length = 0 := by
    intro a l
    simp only [List.length_nil, List.length_cons]
    omega
  refine ⟨rfl, ?_, rfl, ?_, rfl, ?_, rfl, ?_, rfl, ?_, rfl, ?_, ?_, ?_, ?_, ?_⟩
  · cases P with
    | nil => rfl
    | cons a l => simp [repetition, h0 a l]
  · cases P with
    | nil => rfl
    | cons a l => simp [transposition, h0 a l]
  · cases P with
    | nil => rfl
    | cons a l => simp [retrograde, h0 a l]
  · cases P with
    | nil => rfl
    | cons a l => simp [inversion, h0 a l]
  · cases P with
    | nil => rfl
    | cons a l => simp [local_aux_changes, h0 a l]
  · cases P with
    | nil => rfl
    | cons a l => simp [local_value_changes, h0 a l]
  · simp [fragmentation]
  · simp [fragmentation]
  · simp [extension]
  · simp [extension]

end SequenceVariations
